import Mathlib

/-!
# Verification of the chemical-formula atom counter

Shallow embedding of `Random Questions/atomcount.py`.

The Python program defines `count_of_atoms(formula)`, whose inner function
`parse(s, i)` walks the string left to right with an index:

* on a letter it consumes the letter plus any following lowercase letters as
  the atom name, then any following digits as the count (default 1), and adds
  the count to a `defaultdict(int)` accumulator;
* on `'('` it calls `parse(s, i + 1)`, unpacks the result as
  `inner_counts, j`, consumes digits after position `j` as the multiplier,
  and merges `inner_counts` scaled by the multiplier into the accumulator;
* on `')'` it returns the pair `(counts, i)`;
* on any other character it simply advances past it;
* when the index reaches the end of the string it returns `counts` alone
  (no position).

The two return shapes are modelled by `ParseRet.atClose` (the pair returned
at `')'`) and `ParseRet.atEnd` (the bare dict returned at end of input).
Because the shapes differ, the Python program crashes on unmatched
parentheses: unpacking a dict into `inner_counts, j` raises `ValueError`
(or, when the dict has exactly two keys, the unpack succeeds with string
keys and the subsequent `j + 1` raises `TypeError`), and calling `.items()`
on a tuple at the top level raises `AttributeError`.  These unhandled
exceptions are modelled by the explicit error values of `PyErr`.

The `defaultdict(int)` accumulator is modelled as an insertion-ordered
association list (`Counts`); `counts[atom] += c` is `addCount`, and the
merge loop over `inner_counts.items()` is `mergeScaled`.

Character classification (`isUp`, `isLo`, `isDig`, `isAl`) models Python's
Unicode-aware `str.isupper` / `str.islower` / `str.isdigit` / `str.isalpha`
exactly on the model's character domain: the ASCII range plus U+00E9
(the letter e with acute accent), which Python classifies as a lowercase
letter (`isalpha` and `islower` true, `isdigit` false).  Other non-ASCII
code points, which Python may also classify as letters or digits, are
outside the domain; theorems that quantify over per-character behaviour
therefore carry an explicit ASCII hypothesis, and the U+00E9 case
exhibits Python's Unicode-letter behaviour (such a character is parsed as
an atom, not skipped).

Recursion is driven by explicit fuel; `parseF_total` shows that
`length + 1` fuel always suffices, so the fuel is an artifact of the
embedding, not of the program.
-/

namespace AtomCount

/-- Python's `str.isupper` on the model's character domain (ASCII plus
U+00E9): exactly the ASCII uppercase letters. -/
def isUp (c : Char) : Bool := 65 ≤ c.toNat && c.toNat ≤ 90

/-- Python's `str.islower` on the model's character domain: the ASCII
lowercase letters plus U+00E9, which Python classifies as a lowercase
letter. -/
def isLo (c : Char) : Bool := (97 ≤ c.toNat && c.toNat ≤ 122) || c.toNat = 233

/-- Python's `str.isdigit` on the model's character domain: the ASCII
digits (no character of the domain beyond ASCII is a digit). -/
def isDig (c : Char) : Bool := 48 ≤ c.toNat && c.toNat ≤ 57

/-- Python's `str.isalpha` on the model's character domain. -/
def isAl (c : Char) : Bool := isUp c || isLo c

/-- Python's slice `s[a:b]` on a list of characters. -/
def sub (s : List Char) (a b : Nat) : List Char := (s.drop a).take (b - a)

/-- Length of the maximal run of characters satisfying `p` that starts at
index `i` of `s`: the number of iterations performed by a Python scan loop
`while i < n and p(s[i]): i += 1` started at `i`. -/
def runLen (p : Char → Bool) (s : List Char) (i : Nat) : Nat :=
  ((s.drop i).takeWhile p).length

/-- Python's `int` on a string of decimal digits. -/
def digitsToNat (ds : List Char) : Nat :=
  ds.foldl (fun n c => 10 * n + (c.toNat - 48)) 0

/-- The `defaultdict(int)` accumulator: an insertion-ordered association
list from atom names to counts. -/
abbrev Counts := List (List Char × Nat)

/-- Python's `counts[k] += v` on a `defaultdict(int)`: add to the first
entry with key `k`, or append a fresh entry (0 + v) at the end. -/
def addCount (cs : Counts) (k : List Char) (v : Nat) : Counts :=
  match cs with
  | [] => [(k, v)]
  | (k', v') :: t => if k' = k then (k', v' + v) :: t else (k', v') :: addCount t k v

/-- The merge loop `for atom, count in inner.items(): counts[atom] += count * m`. -/
def mergeScaled (cs : Counts) (inner : Counts) (m : Nat) : Counts :=
  match inner with
  | [] => cs
  | (k, v) :: t => mergeScaled (addCount cs k (v * m)) t m

/-- Total count recorded for key `k` (0 when absent), the value Python's
dict lookup returns on the parser's duplicate-free accumulators. -/
def lookup (cs : Counts) (k : List Char) : Nat :=
  match cs with
  | [] => 0
  | (k', v) :: t => (if k' = k then v else 0) + lookup t k

/-- The unhandled Python exceptions the program can raise. -/
inductive PyErr : Type where
  | valueError : PyErr
  | typeError : PyErr
  | attributeError : PyErr
deriving DecidableEq

/-- The two return shapes of the Python `parse` function: `atEnd counts` is
`return counts` after the loop exhausts the input, `atClose counts i` is
`return counts, i` at a `')'`. -/
inductive ParseRet : Type where
  | atEnd : Counts → ParseRet
  | atClose : Counts → Nat → ParseRet
deriving DecidableEq

/-- One unfolding of the body of the Python `parse(s, i)` loop, with `r` the
recursive entry point (both the self-call at `'('` and the continuation of
the loop).  Faithful transcription of `atomcount.py` lines 4-45. -/
def parseBody (r : List Char → Nat → Counts → Option (Except PyErr ParseRet))
    (s : List Char) (i : Nat) (counts : Counts) : Option (Except PyErr ParseRet) :=
  if h : i < s.length then
    let c := s.get ⟨i, h⟩
    if isAl c then
      -- atom name: the letter plus following lowercase letters
      let e := i + runLen isLo s (i + 1)
      -- its count: following digits, default 1
      let k := runLen isDig s (e + 1)
      let cnt := if 0 < k then digitsToNat (sub s (e + 1) (e + 1 + k)) else 1
      r s (e + k + 1) (addCount counts (sub s i (e + 1)) cnt)
    else if c = '(' then
      match r s (i + 1) [] with
      | none => none
      | some (Except.error err) => some (Except.error err)
      | some (Except.ok (ParseRet.atEnd inner)) =>
          -- `inner_counts, j = parse(s, i+1)` unpacks a dict: ValueError
          -- unless it has exactly two keys, in which case the string key
          -- bound to `j` makes the subsequent `j + 1` a TypeError
          some (Except.error (if inner.length = 2 then PyErr.typeError else PyErr.valueError))
      | some (Except.ok (ParseRet.atClose inner j)) =>
          -- group multiplier: digits after the `')'` at position j
          let k := runLen isDig s (j + 1)
          let m := if 0 < k then digitsToNat (sub s (j + 1) (j + 1 + k)) else 1
          r s (j + k + 1) (mergeScaled counts inner m)
    else if c = ')' then some (Except.ok (ParseRet.atClose counts i))
    else r s (i + 1) counts
  else some (Except.ok (ParseRet.atEnd counts))

/-- The Python `parse(s, i)` with an explicit fuel driving the recursion;
`none` means the fuel ran out (shown impossible for the fuel `parseRun`
supplies, see `parseF_total`). -/
def parseF : Nat → List Char → Nat → Counts → Option (Except PyErr ParseRet)
  | 0, _, _, _ => none
  | fuel + 1, s, i, counts => parseBody (parseF fuel) s i counts

/-- The top-level call `parse(formula, 0)`. -/
def parseRun (s : List Char) : Option (Except PyErr ParseRet) :=
  parseF (s.length + 1) s 0 []

/-- Lexicographic (code-point) order on atom names, mirroring Python's
string comparison used by `sorted`. -/
def lexLe : List Char → List Char → Bool
  | [], _ => true
  | _ :: _, [] => false
  | a :: as, b :: bs => if a = b then lexLe as bs else decide (a < b)

/-- Insert an entry into a list sorted by `lexLe` on the keys. -/
def insertByKey (p : List Char × Nat) : Counts → Counts
  | [] => [p]
  | q :: t => if lexLe p.1 q.1 then p :: q :: t else q :: insertByKey p t

/-- `sorted(result.items())`: insertion sort by atom name. -/
def sortCounts : Counts → Counts
  | [] => []
  | p :: t => insertByKey p (sortCounts t)

/-- The observable behaviour of `count_of_atoms(formula)`: the sorted
`atom: count` pairs it prints on success, or the unhandled exception it
raises.  A top-level `atClose` result is the tuple on which `.items()`
raises `AttributeError`.  `none` is the fuel artifact, never reached. -/
def countOfAtoms (s : String) : Option (Except PyErr (List (String × Nat))) :=
  match parseRun s.data with
  | none => none
  | some (Except.error err) => some (Except.error err)
  | some (Except.ok (ParseRet.atEnd cs)) =>
      some (Except.ok ((sortCounts cs).map (fun p => (String.mk p.1, p.2))))
  | some (Except.ok (ParseRet.atClose _ _)) => some (Except.error PyErr.attributeError)

/-! ## Basic lemmas about the embedding -/

theorem isUp_not_isLo {c : Char} (h : isUp c = true) : isLo c = false := by
  simp only [isUp, Bool.and_eq_true, decide_eq_true_eq] at h
  simp only [isLo, Bool.or_eq_false_iff, Bool.and_eq_false_iff, decide_eq_false_iff_not]
  omega

theorem isUp_not_isDig {c : Char} (h : isUp c = true) : isDig c = false := by
  simp only [isUp, Bool.and_eq_true, decide_eq_true_eq] at h
  simp only [isDig, Bool.and_eq_false_iff, decide_eq_false_iff_not]
  omega

theorem isDig_not_isLo {c : Char} (h : isDig c = true) : isLo c = false := by
  simp only [isDig, Bool.and_eq_true, decide_eq_true_eq] at h
  simp only [isLo, Bool.or_eq_false_iff, Bool.and_eq_false_iff, decide_eq_false_iff_not]
  omega

theorem isUp_isAl {c : Char} (h : isUp c = true) : isAl c = true := by
  simp only [isAl, Bool.or_eq_true]
  exact Or.inl h

theorem isDig_not_isAl {c : Char} (h : isDig c = true) : isAl c = false := by
  simp only [isDig, Bool.and_eq_true, decide_eq_true_eq] at h
  simp only [isAl, isUp, isLo, Bool.or_eq_false_iff, Bool.and_eq_false_iff,
    decide_eq_false_iff_not]
  omega

theorem isDig_ne_open {c : Char} (h : isDig c = true) : c ≠ '(' := by
  intro hc; subst hc; simp [isDig] at h

theorem isDig_ne_close {c : Char} (h : isDig c = true) : c ≠ ')' := by
  intro hc; subst hc; simp [isDig] at h

/-- Element at the junction of an append. -/
theorem get_pre (pre : List Char) (c : Char) (u : List Char) (h : pre.length < (pre ++ c :: u).length) :
    (pre ++ c :: u).get ⟨pre.length, h⟩ = c := by
  induction pre with
  | nil => rfl
  | cons a pre ih =>
      exact ih (by simp only [List.length_cons, List.cons_append] at h; omega)

/-- The head of the list fails `p` (vacuously true for `[]`). -/
def headNot (p : Char → Bool) : List Char → Prop
  | [] => True
  | c :: _ => p c = false

theorem headNot_append {p : Char → Bool} {u z : List Char}
    (hu : headNot p u) (hz : headNot p z) : headNot p (u ++ z) := by
  cases u with
  | nil => simpa using hz
  | cons c t => simpa [headNot] using hu

theorem takeWhile_all_append {p : Char → Bool} {u v : List Char}
    (hu : u.all p = true) (hv : headNot p v) : (u ++ v).takeWhile p = u := by
  induction u with
  | nil =>
      cases v with
      | nil => rfl
      | cons c t => simp [headNot] at hv; simp [List.takeWhile, hv]
  | cons a u ih =>
      simp only [List.all_cons, Bool.and_eq_true] at hu
      simp [List.takeWhile, hu.1, ih hu.2]

/-- A scan starting right after a prefix measures exactly the run `u`. -/
theorem runLen_spec (p : Char → Bool) (pre u v : List Char)
    (hu : u.all p = true) (hv : headNot p v) :
    runLen p (pre ++ (u ++ v)) pre.length = u.length := by
  unfold runLen
  rw [List.drop_left, takeWhile_all_append hu hv]

/-- A slice starting right after a prefix extracts exactly `u`. -/
theorem sub_spec (pre u v : List Char) :
    sub (pre ++ (u ++ v)) pre.length (pre.length + u.length) = u := by
  unfold sub
  rw [Nat.add_sub_cancel_left, List.drop_left, List.take_left]

/-! ## Accounting lemmas for the accumulator -/

theorem lookup_addCount (cs : Counts) (k : List Char) (v : Nat) (k' : List Char) :
    lookup (addCount cs k v) k' = lookup cs k' + (if k = k' then v else 0) := by
  induction cs with
  | nil =>
      by_cases h : k = k' <;> simp [addCount, lookup, h]
  | cons p t ih =>
      obtain ⟨k₀, v₀⟩ := p
      by_cases h : k₀ = k
      · subst h
        by_cases h' : k₀ = k'
        · subst h'
          simp [addCount, lookup]
          omega
        · simp [addCount, lookup, h']
      · by_cases h' : k₀ = k'
        · subst h'
          simp [addCount, lookup, h, ih]
          omega
        · simp [addCount, lookup, h, h', ih]

theorem lookup_mergeScaled (inner : Counts) (cs : Counts) (m : Nat) (k' : List Char) :
    lookup (mergeScaled cs inner m) k' = lookup cs k' + m * lookup inner k' := by
  induction inner generalizing cs with
  | nil => simp [mergeScaled, lookup]
  | cons p t ih =>
      obtain ⟨k, v⟩ := p
      simp only [mergeScaled, ih, lookup_addCount, lookup]
      by_cases h : k = k'
      · simp [h]
        ring
      · simp [h]

/-! ## Branch lemmas for one unfolding of the loop body -/

theorem isAl_open : isAl '(' = false := rfl

theorem isAl_close : isAl ')' = false := rfl

theorem parseBody_end (r : List Char → Nat → Counts → Option (Except PyErr ParseRet))
    (s : List Char) (i : Nat) (counts : Counts) (h : ¬ i < s.length) :
    parseBody r s i counts = some (Except.ok (ParseRet.atEnd counts)) := by
  unfold parseBody
  rw [dif_neg h]

theorem parseBody_alpha (r : List Char → Nat → Counts → Option (Except PyErr ParseRet))
    (s : List Char) (i : Nat) (counts : Counts) (h : i < s.length)
    (ha : isAl (s.get ⟨i, h⟩) = true) (e k : Nat)
    (he : e = i + runLen isLo s (i + 1)) (hk : k = runLen isDig s (e + 1)) :
    parseBody r s i counts =
      r s (e + k + 1) (addCount counts (sub s i (e + 1))
        (if 0 < k then digitsToNat (sub s (e + 1) (e + 1 + k)) else 1)) := by
  subst he hk
  unfold parseBody
  rw [dif_pos h]
  simp only [ha, if_pos rfl]
  rw [if_pos trivial]

theorem parseBody_open (r : List Char → Nat → Counts → Option (Except PyErr ParseRet))
    (s : List Char) (i : Nat) (counts : Counts) (h : i < s.length)
    (ho : s.get ⟨i, h⟩ = '(') :
    parseBody r s i counts =
      match r s (i + 1) [] with
      | none => none
      | some (Except.error err) => some (Except.error err)
      | some (Except.ok (ParseRet.atEnd inner)) =>
          some (Except.error (if inner.length = 2 then PyErr.typeError else PyErr.valueError))
      | some (Except.ok (ParseRet.atClose inner j)) =>
          r s (j + runLen isDig s (j + 1) + 1)
            (mergeScaled counts inner
              (if 0 < runLen isDig s (j + 1) then
                digitsToNat (sub s (j + 1) (j + 1 + runLen isDig s (j + 1))) else 1)) := by
  unfold parseBody
  rw [dif_pos h]
  simp only [ho, isAl_open, Bool.false_eq_true, if_false, if_pos rfl]
  rw [if_pos trivial]

theorem parseBody_close (r : List Char → Nat → Counts → Option (Except PyErr ParseRet))
    (s : List Char) (i : Nat) (counts : Counts) (h : i < s.length)
    (hc : s.get ⟨i, h⟩ = ')') :
    parseBody r s i counts = some (Except.ok (ParseRet.atClose counts i)) := by
  unfold parseBody
  rw [dif_pos h]
  have hno : (')' : Char) ≠ '(' := by decide
  simp only [hc, isAl_close, Bool.false_eq_true, if_false, if_neg hno, if_pos rfl]
  rw [if_pos trivial]

theorem parseBody_skip (r : List Char → Nat → Counts → Option (Except PyErr ParseRet))
    (s : List Char) (i : Nat) (counts : Counts) (h : i < s.length)
    (h1 : isAl (s.get ⟨i, h⟩) = false) (h2 : s.get ⟨i, h⟩ ≠ '(') (h3 : s.get ⟨i, h⟩ ≠ ')') :
    parseBody r s i counts = r s (i + 1) counts := by
  unfold parseBody
  rw [dif_pos h]
  simp only [h1, Bool.false_eq_true, if_false, if_neg h2, if_neg h3]

theorem parseF_succ (fuel : Nat) (s : List Char) (i : Nat) (counts : Counts) :
    parseF (fuel + 1) s i counts = parseBody (parseF fuel) s i counts := rfl

theorem parseBody_open_close (r : List Char → Nat → Counts → Option (Except PyErr ParseRet))
    (s : List Char) (i : Nat) (counts : Counts) (h : i < s.length)
    (ho : s.get ⟨i, h⟩ = '(') (inner : Counts) (j : Nat)
    (hrec : r s (i + 1) [] = some (Except.ok (ParseRet.atClose inner j))) :
    parseBody r s i counts =
      r s (j + runLen isDig s (j + 1) + 1)
        (mergeScaled counts inner
          (if 0 < runLen isDig s (j + 1) then
            digitsToNat (sub s (j + 1) (j + 1 + runLen isDig s (j + 1))) else 1)) := by
  rw [parseBody_open r s i counts h ho, hrec]

theorem parseBody_open_end (r : List Char → Nat → Counts → Option (Except PyErr ParseRet))
    (s : List Char) (i : Nat) (counts : Counts) (h : i < s.length)
    (ho : s.get ⟨i, h⟩ = '(') (inner : Counts)
    (hrec : r s (i + 1) [] = some (Except.ok (ParseRet.atEnd inner))) :
    parseBody r s i counts =
      some (Except.error (if inner.length = 2 then PyErr.typeError else PyErr.valueError)) := by
  rw [parseBody_open r s i counts h ho, hrec]

/-! ## Cursor facts and totality -/

/-- Combined invariant of every `parse` invocation that returns the
`(counts, i)` pair: the returned position is at or after the start
position, and it holds the `')'` that ended the invocation. -/
theorem parseF_atClose_facts (fuel : Nat) :
    ∀ (s : List Char) (i : Nat) (counts cs : Counts) (j : Nat),
      parseF fuel s i counts = some (Except.ok (ParseRet.atClose cs j)) →
      i ≤ j ∧ ∃ h : j < s.length, s.get ⟨j, h⟩ = ')' := by
  induction fuel with
  | zero =>
      intro s i counts cs j hp
      simp [parseF] at hp
  | succ f ih =>
      intro s i counts cs j hp
      rw [parseF_succ] at hp
      by_cases h : i < s.length
      · by_cases ha : isAl (s.get ⟨i, h⟩) = true
        · rw [parseBody_alpha (parseF f) s i counts h ha _ _ rfl rfl] at hp
          obtain ⟨h1, h2⟩ := ih _ _ _ _ _ hp
          refine ⟨?_, h2⟩
          omega
        · by_cases ho : s.get ⟨i, h⟩ = '('
          · rw [parseBody_open (parseF f) s i counts h ho] at hp
            cases hrec : parseF f s (i + 1) [] with
            | none => rw [hrec] at hp; exact absurd hp (by simp)
            | some v =>
                rw [hrec] at hp
                cases v with
                | error err => exact absurd hp (by simp)
                | ok ret =>
                    cases ret with
                    | atEnd inner => exact absurd hp (by simp)
                    | atClose inner j' =>
                        obtain ⟨g1, g2⟩ := ih _ _ _ _ _ hrec
                        obtain ⟨h1, h2⟩ := ih _ _ _ _ _ hp
                        refine ⟨?_, h2⟩
                        omega
          · by_cases hc : s.get ⟨i, h⟩ = ')'
            · rw [parseBody_close (parseF f) s i counts h hc] at hp
              simp only [Option.some.injEq, Except.ok.injEq, ParseRet.atClose.injEq] at hp
              obtain ⟨hcs, hij⟩ := hp
              subst hij
              exact ⟨Nat.le_refl i, h, hc⟩
            · rw [parseBody_skip (parseF f) s i counts h
                (Bool.not_eq_true _ ▸ ha) ho hc] at hp
              obtain ⟨h1, h2⟩ := ih _ _ _ _ _ hp
              exact ⟨by omega, h2⟩
      · rw [parseBody_end (parseF f) s i counts h] at hp
        exact absurd hp (by simp)

/-- Fuel adequacy: one unit of fuel more than the number of remaining
characters is always enough, so the fuel never runs out on the fuel budget
`parseRun` supplies.  This is the embedding-level statement that the Python
recursion terminates on every finite input. -/
theorem parseF_total (fuel : Nat) :
    ∀ (s : List Char) (i : Nat) (counts : Counts),
      s.length - i < fuel → parseF fuel s i counts ≠ none := by
  induction fuel with
  | zero =>
      intro s i counts hlt
      omega
  | succ f ih =>
      intro s i counts hlt
      rw [parseF_succ]
      by_cases h : i < s.length
      · by_cases ha : isAl (s.get ⟨i, h⟩) = true
        · rw [parseBody_alpha (parseF f) s i counts h ha _ _ rfl rfl]
          have he : i ≤ i + runLen isLo s (i + 1) := Nat.le_add_right ..
          exact ih _ _ _ (by omega)
        · by_cases ho : s.get ⟨i, h⟩ = '('
          · rw [parseBody_open (parseF f) s i counts h ho]
            cases hrec : parseF f s (i + 1) [] with
            | none => exact absurd hrec (ih _ _ _ (by omega))
            | some v =>
                cases v with
                | error err => simp
                | ok ret =>
                    cases ret with
                    | atEnd inner => simp
                    | atClose inner j' =>
                        have hj : i + 1 ≤ j' := (parseF_atClose_facts f _ _ _ _ _ hrec).1
                        exact ih _ _ _ (by omega)
          · by_cases hc : s.get ⟨i, h⟩ = ')'
            · rw [parseBody_close (parseF f) s i counts h hc]
              simp
            · rw [parseBody_skip (parseF f) s i counts h
                (Bool.not_eq_true _ ▸ ha) ho hc]
              exact ih _ _ _ (by omega)
      · rw [parseBody_end (parseF f) s i counts h]
        simp

/-- The fuel `parseRun` supplies is adequate. -/
theorem parseRun_ne_none (s : List Char) : parseRun s ≠ none :=
  parseF_total (s.length + 1) s 0 [] (by omega)

/-! ## The grammar of valid formulas and the reference expansion

The spec gives the grammar `formula := term*`,
`term := element count? | '(' formula ')' count?`, `element := UPPER lower*`,
and a reference semantics: fully expand every parenthesized group
multiplicatively (repeating its contents per the multiplier) and then count
atoms of the flat result. -/

/-- Abstract syntax of a valid formula: a sequence of terms, each an
element or a parenthesized group, with `cstr` the literal digit string of
an explicit count (`[]` when the count is absent). -/
inductive Formula : Type where
  | nil : Formula
  | atom (name : List Char) (cstr : List Char) (rest : Formula) : Formula
  | grp (inner : Formula) (cstr : List Char) (rest : Formula) : Formula

/-- The concrete formula string an AST denotes. -/
def renderF : Formula → List Char
  | Formula.nil => []
  | Formula.atom nm cstr rest => nm ++ (cstr ++ renderF rest)
  | Formula.grp inner cstr rest => '(' :: (renderF inner ++ (')' :: (cstr ++ renderF rest)))

/-- Value of an optional count literal: default 1 when absent. -/
def cval : List Char → Nat
  | [] => 1
  | c :: t => digitsToNat (c :: t)

/-- Full multiplicative expansion, following the spec's words: every group
is expanded by repeating its contents per the multiplier, producing the
flat list of atom occurrences of the whole formula. -/
def expandF : Formula → List (List Char)
  | Formula.nil => []
  | Formula.atom nm cstr rest => List.replicate (cval cstr) nm ++ expandF rest
  | Formula.grp inner cstr rest =>
      (List.replicate (cval cstr) (expandF inner)).flatten ++ expandF rest

/-- The reference count of an atom: occurrences in the full expansion. -/
def specCount (f : Formula) (nm : List Char) : Nat := (expandF f).count nm

/-- An element symbol: one uppercase letter then lowercase letters. -/
def validName : List Char → Bool
  | [] => false
  | c :: t => isUp c && t.all isLo

/-- Well-formedness of the AST: names match `[A-Z][a-z]*` and count
literals are digit strings. -/
def validF : Formula → Bool
  | Formula.nil => true
  | Formula.atom nm cstr rest => validName nm && cstr.all isDig && validF rest
  | Formula.grp inner cstr rest => validF inner && cstr.all isDig && validF rest

/-- Fuel needed by `parseF` to process a rendered formula (one unit per
loop entry, groups nest). -/
def needF : Formula → Nat
  | Formula.nil => 1
  | Formula.atom _ _ rest => 1 + needF rest
  | Formula.grp inner _ rest => 1 + needF inner + needF rest

/-- The suffix contexts in which a rendered formula is parsed: end of
input, or the `')'` closing the enclosing group. -/
def closeOrEnd : List Char → Prop
  | [] => True
  | c :: _ => c = ')'

/-- Uniform description of what `parse` produces in such a context. -/
def finish (counts : Counts) (i : Nat) : List Char → Option (Except PyErr ParseRet)
  | [] => some (Except.ok (ParseRet.atEnd counts))
  | _ :: _ => some (Except.ok (ParseRet.atClose counts i))

theorem count_flatten_replicate (n : Nat) (l : List (List Char)) (a : List Char) :
    ((List.replicate n l).flatten).count a = n * l.count a := by
  induction n with
  | zero => simp
  | succ m ih =>
      simp [List.replicate_succ, List.count_append, ih]
      ring

/-- A rendered valid formula, in a valid suffix context, never starts with
a lowercase letter or a digit. -/
theorem renderF_headNot (f : Formula) (hv : validF f = true) (suf : List Char)
    (hs : closeOrEnd suf) :
    headNot isLo (renderF f ++ suf) ∧ headNot isDig (renderF f ++ suf) := by
  cases f with
  | nil =>
      cases suf with
      | nil => exact ⟨trivial, trivial⟩
      | cons c t =>
          have hc : c = ')' := hs
          subst hc
          exact ⟨rfl, rfl⟩
  | atom nm cstr rest =>
      simp only [validF, Bool.and_eq_true] at hv
      cases nm with
      | nil => simp [validName] at hv
      | cons c0 tl =>
          have hup : isUp c0 = true := by
            have h1 := hv.1.1
            simp only [validName, Bool.and_eq_true] at h1
            exact h1.1
          simp only [renderF, List.cons_append, List.append_assoc]
          exact ⟨isUp_not_isLo hup, isUp_not_isDig hup⟩
  | grp inner cstr rest =>
      simp only [renderF, List.cons_append]
      exact ⟨rfl, rfl⟩

/-- The fuel bound used at the top level: a formula never needs more fuel
than its length plus one. -/
theorem needF_le (f : Formula) (hv : validF f = true) :
    needF f ≤ (renderF f).length + 1 := by
  induction f with
  | nil => simp [needF, renderF]
  | atom nm cstr rest ih =>
      simp only [validF, Bool.and_eq_true] at hv
      have hnm : 1 ≤ nm.length := by
        cases nm with
        | nil => simp [validName] at hv
        | cons c t => simp
      have := ih hv.2
      simp only [needF, renderF, List.length_append]
      omega
  | grp inner cstr rest ihi ihr =>
      simp only [validF, Bool.and_eq_true] at hv
      have h1 := ihi hv.1.1
      have h2 := ihr hv.2
      simp only [needF, renderF, List.length_cons, List.length_append]
      omega


theorem cval_ite (cstr : List Char) :
    (if 0 < cstr.length then digitsToNat cstr else 1) = cval cstr := by
  cases cstr with
  | nil => simp [cval]
  | cons c t => simp [cval]

/-- Parsing a rendered valid formula in a valid suffix context consumes
exactly the formula, stops as the context dictates, and accumulates
exactly the reference (full-expansion) counts on top of the counts it
started with. -/
theorem parseF_render (f : Formula) :
    ∀ (fuel : Nat), needF f ≤ fuel → validF f = true →
    ∀ (pre suf : List Char) (counts : Counts), closeOrEnd suf →
    ∃ counts' : Counts,
      parseF fuel (pre ++ (renderF f ++ suf)) pre.length counts =
        finish counts' (pre.length + (renderF f).length) suf ∧
      ∀ nm, lookup counts' nm = lookup counts nm + specCount f nm := by
  induction f with
  | nil =>
      intro fuel hfuel hv pre suf counts hsuf
      cases fuel with
      | zero => simp [needF] at hfuel
      | succ fl =>
          refine ⟨counts, ?_, ?_⟩
          · cases suf with
            | nil =>
                rw [parseF_succ]
                simp only [renderF, List.nil_append, List.append_nil]
                rw [parseBody_end _ _ _ _ (Nat.lt_irrefl _)]
                simp [finish, renderF]
            | cons c t =>
                have hc : c = ')' := hsuf
                subst hc
                rw [parseF_succ]
                simp only [renderF, List.nil_append]
                have hlen : pre.length < (pre ++ ')' :: t).length := by simp
                rw [parseBody_close _ _ _ _ hlen (get_pre pre ')' t hlen)]
                simp [finish, renderF]
          · intro nm
            simp [specCount, expandF]
  | atom nm cstr rest ihr =>
      intro fuel hfuel hv pre suf counts hsuf
      simp only [validF, Bool.and_eq_true] at hv
      obtain ⟨⟨hnm, hcd⟩, hvr⟩ := hv
      cases nm with
      | nil => simp [validName] at hnm
      | cons c0 tl =>
      simp only [validName, Bool.and_eq_true] at hnm
      obtain ⟨hup, hlo⟩ := hnm
      cases fuel with
      | zero => simp [needF] at hfuel
      | succ fl =>
      have hfr : needF rest ≤ fl := by
        simp only [needF] at hfuel
        omega
      simp only [renderF, List.cons_append, List.append_assoc, List.length_append,
        List.length_cons]
      have hhead := renderF_headNot rest hvr suf hsuf
      have hlen : pre.length <
          (pre ++ c0 :: (tl ++ (cstr ++ (renderF rest ++ suf)))).length := by simp
      have hget := get_pre pre c0 (tl ++ (cstr ++ (renderF rest ++ suf))) hlen
      have hrun1 : runLen isLo (pre ++ c0 :: (tl ++ (cstr ++ (renderF rest ++ suf))))
          (pre.length + 1) = tl.length := by
        have hx : headNot isLo (cstr ++ (renderF rest ++ suf)) := by
          cases cstr with
          | nil => simpa using hhead.1
          | cons d dt =>
              have hd : isDig d = true := by
                simp only [List.all_cons, Bool.and_eq_true] at hcd
                exact hcd.1
              simpa [headNot] using isDig_not_isLo hd
        have h0 := runLen_spec isLo (pre ++ [c0]) tl (cstr ++ (renderF rest ++ suf)) hlo hx
        simpa using h0
      have hrun2 : runLen isDig (pre ++ c0 :: (tl ++ (cstr ++ (renderF rest ++ suf))))
          (pre.length + tl.length + 1) = cstr.length := by
        have h0 := runLen_spec isDig (pre ++ c0 :: tl) cstr (renderF rest ++ suf) hcd hhead.2
        simp only [List.append_assoc, List.cons_append, List.length_append,
          List.length_cons] at h0
        rw [← Nat.add_assoc] at h0
        exact h0
      have hsub1 : sub (pre ++ c0 :: (tl ++ (cstr ++ (renderF rest ++ suf))))
          pre.length (pre.length + tl.length + 1) = c0 :: tl := by
        have h0 := sub_spec pre (c0 :: tl) (cstr ++ (renderF rest ++ suf))
        simp only [List.append_assoc, List.cons_append, List.length_cons] at h0
        rw [← Nat.add_assoc] at h0
        exact h0
      have hsub2 : sub (pre ++ c0 :: (tl ++ (cstr ++ (renderF rest ++ suf))))
          (pre.length + tl.length + 1) (pre.length + tl.length + 1 + cstr.length) = cstr := by
        have h0 := sub_spec (pre ++ c0 :: tl) cstr (renderF rest ++ suf)
        simp only [List.append_assoc, List.cons_append, List.length_append,
          List.length_cons] at h0
        rw [← Nat.add_assoc] at h0
        exact h0
      rw [parseF_succ, parseBody_alpha (parseF fl) _ _ counts hlen
        (by rw [hget]; exact isUp_isAl hup) (pre.length + tl.length) cstr.length
        (by rw [hrun1]) (by rw [hrun2])]
      rw [hsub1, hsub2, cval_ite]
      obtain ⟨cOut, hOut, hlookOut⟩ := ihr fl hfr hvr (pre ++ c0 :: (tl ++ cstr)) suf
        (addCount counts (c0 :: tl) (cval cstr)) hsuf
      simp only [List.append_assoc, List.cons_append, List.length_append,
        List.length_cons] at hOut
      refine ⟨cOut, ?_, ?_⟩
      · convert hOut using 2
        · omega
        · omega
      · intro nmq
        rw [hlookOut nmq, lookup_addCount]
        simp only [specCount, expandF, List.count_append, List.count_replicate, beq_iff_eq]
        by_cases hq : c0 :: tl = nmq
        · simp only [hq, if_pos rfl]
          omega
        · simp only [if_neg hq]
          omega
  | grp inner cstr rest ihi ihr =>
      intro fuel hfuel hv pre suf counts hsuf
      simp only [validF, Bool.and_eq_true] at hv
      obtain ⟨⟨hvi, hcd⟩, hvr⟩ := hv
      cases fuel with
      | zero => simp [needF] at hfuel
      | succ fl =>
      have hfi : needF inner ≤ fl := by
        simp only [needF] at hfuel
        omega
      have hfr : needF rest ≤ fl := by
        simp only [needF] at hfuel
        omega
      simp only [renderF, List.cons_append, List.append_assoc, List.length_append,
        List.length_cons]
      have hhead := renderF_headNot rest hvr suf hsuf
      have hlen : pre.length <
          (pre ++ '(' :: (renderF inner ++ ')' :: (cstr ++ (renderF rest ++ suf)))).length := by
        simp
      have hget := get_pre pre '(' (renderF inner ++ ')' :: (cstr ++ (renderF rest ++ suf))) hlen
      obtain ⟨cIn, hIn, hlookIn⟩ := ihi fl hfi hvi (pre ++ ['('])
        (')' :: (cstr ++ (renderF rest ++ suf))) [] rfl
      simp only [List.append_assoc, List.cons_append, List.nil_append, List.length_append,
        List.length_cons, List.length_nil, Nat.zero_add, Nat.add_zero, finish] at hIn
      rw [parseF_succ, parseBody_open_close (parseF fl) _ _ counts hlen hget cIn _ hIn]
      have hrun2 : runLen isDig (pre ++ '(' :: (renderF inner ++ ')' :: (cstr ++ (renderF rest ++ suf))))
          (pre.length + 1 + (renderF inner).length + 1) = cstr.length := by
        have h0 := runLen_spec isDig (pre ++ '(' :: (renderF inner ++ [')']))
          cstr (renderF rest ++ suf) hcd hhead.2
        simp only [List.append_assoc, List.cons_append, List.nil_append, List.length_append,
          List.length_cons, List.length_nil] at h0
        convert h0 using 2
        omega
      have hsub : sub (pre ++ '(' :: (renderF inner ++ ')' :: (cstr ++ (renderF rest ++ suf))))
          (pre.length + 1 + (renderF inner).length + 1)
          (pre.length + 1 + (renderF inner).length + 1 + cstr.length) = cstr := by
        have h0 := sub_spec (pre ++ '(' :: (renderF inner ++ [')'])) cstr (renderF rest ++ suf)
        simp only [List.append_assoc, List.cons_append, List.nil_append, List.length_append,
          List.length_cons, List.length_nil] at h0
        convert h0 using 2 <;> omega
      rw [hrun2, hsub, cval_ite]
      obtain ⟨cOut, hOut, hlookOut⟩ := ihr fl hfr hvr
        (pre ++ '(' :: (renderF inner ++ ')' :: cstr)) suf
        (mergeScaled counts cIn (cval cstr)) hsuf
      simp only [List.append_assoc, List.cons_append, List.length_append,
        List.length_cons] at hOut
      refine ⟨cOut, ?_, ?_⟩
      · convert hOut using 2
        · omega
        · omega
      · intro nmq
        have hcin : lookup cIn nmq = specCount inner nmq := by
          have h0 := hlookIn nmq
          simpa [lookup] using h0
        rw [hlookOut nmq, lookup_mergeScaled, hcin]
        simp only [specCount, expandF, List.count_append, count_flatten_replicate]
        ring


/-- The parser agrees with the reference full-expansion semantics on every
valid formula (top-level form). -/
theorem parseRun_render (f : Formula) (hv : validF f = true) :
    ∃ counts : Counts,
      parseRun (renderF f) = some (Except.ok (ParseRet.atEnd counts)) ∧
      ∀ nm, lookup counts nm = specCount f nm := by
  obtain ⟨c, hrun, hlook⟩ :=
    parseF_render f ((renderF f).length + 1) (needF_le f hv) hv [] [] [] trivial
  refine ⟨c, ?_, ?_⟩
  · unfold parseRun
    simpa [finish] using hrun
  · intro nm
    simpa [lookup] using hlook nm



/-! ## The claims -/

/-- C1: the parser computes exactly the documented atom counts on the
worked examples: `H2O` gives H:2 O:1, `Mg(OH)2` gives Mg:1 O:2 H:2,
`K4(ON(SO3)2)2` gives K:4 O:14 N:2 S:4, `C6H12O6` gives C:6 H:12 O:6, and
`Na` (an element with no explicit count) defaults to 1. -/
theorem countOfAtoms_examples :
    countOfAtoms "H2O" = some (Except.ok [("H", 2), ("O", 1)]) ∧
    countOfAtoms "Mg(OH)2" = some (Except.ok [("H", 2), ("Mg", 1), ("O", 2)]) ∧
    countOfAtoms "K4(ON(SO3)2)2"
      = some (Except.ok [("K", 4), ("N", 2), ("O", 14), ("S", 4)]) ∧
    countOfAtoms "C6H12O6" = some (Except.ok [("C", 6), ("H", 12), ("O", 6)]) ∧
    countOfAtoms "Na" = some (Except.ok [("Na", 1)]) :=
  ⟨rfl, rfl, rfl, rfl, rfl⟩

/-- C2: on every valid formula the parser's incremental
multiply-on-group-exit accumulation returns exactly the counts of the
reference semantics that fully expands every parenthesized group
multiplicatively before counting atoms. -/
theorem parser_equals_expansion (f : Formula) (hv : validF f = true) :
    ∃ counts : Counts,
      parseRun (renderF f) = some (Except.ok (ParseRet.atEnd counts)) ∧
      ∀ nm, lookup counts nm = specCount f nm :=
  parseRun_render f hv

theorem parser_equals_expansion_witness :
    validF (Formula.atom ['M', 'g'] []
      (Formula.grp (Formula.atom ['O'] [] (Formula.atom ['H'] [] Formula.nil)) ['2']
        Formula.nil)) = true ∧
    ∃ counts : Counts,
      parseRun (renderF (Formula.atom ['M', 'g'] []
        (Formula.grp (Formula.atom ['O'] [] (Formula.atom ['H'] [] Formula.nil)) ['2']
          Formula.nil))) = some (Except.ok (ParseRet.atEnd counts)) ∧
      ∀ nm, lookup counts nm
        = specCount (Formula.atom ['M', 'g'] []
            (Formula.grp (Formula.atom ['O'] [] (Formula.atom ['H'] [] Formula.nil)) ['2']
              Formula.nil)) nm :=
  ⟨by decide, parser_equals_expansion _ (by decide)⟩

/-- C3 counterexample: `parse("H2$")` does not fail with an
`InvalidCharacter` error at the offset of `$` — the program has no such
error and returns the successful count H:2. -/
theorem invalidChar_counterexample :
    countOfAtoms "H2$" = some (Except.ok [("H", 2)]) := rfl

/-- C3 (amended): the program has no `InvalidCharacter` error.  An ASCII
character outside `[A-Za-z()]` — which covers both ASCII characters
outside `[A-Za-z0-9()]` and ASCII digits with no preceding element or
closing group to attach to — is silently skipped: one loop step advances
past it leaving the accumulator unchanged, and in particular
`parse("H2$")` succeeds with H:2 instead of halting with an error.  (The
ASCII restriction is essential: Python's Unicode `isalpha` makes a
non-ASCII letter such as U+00E9 start an atom name instead, see the C10
theorems.) -/
theorem invalidChar_skipped :
    (∀ (fuel : Nat) (s : List Char) (i : Nat) (counts : Counts) (h : i < s.length),
      (s.get ⟨i, h⟩).toNat < 128 →
      isAl (s.get ⟨i, h⟩) = false →
      s.get ⟨i, h⟩ ≠ '(' → s.get ⟨i, h⟩ ≠ ')' →
      parseF (fuel + 1) s i counts = parseF fuel s (i + 1) counts) ∧
    countOfAtoms "H2$" = some (Except.ok [("H", 2)]) := by
  refine ⟨?_, rfl⟩
  intro fuel s i counts h _ h1 h2 h3
  rw [parseF_succ, parseBody_skip _ _ _ _ h h1 h2 h3]

theorem invalidChar_skipped_witness :
    parseF 2 ['$'] 0 [] = parseF 1 ['$'] 1 [] :=
  invalidChar_skipped.1 1 ['$'] 0 [] (by decide) (by decide) (by decide)
    (by decide) (by decide)

/-- C4 counterexample: unmatched parentheses do not produce structured
`UnmatchedOpenGroup` / `UnmatchedCloseGroup` errors: `parse("(")` crashes
with an unhandled `ValueError` (unpacking the dict returned by the inner
call) and `parse("A))")` crashes with an unhandled `AttributeError`
(calling `.items()` on the tuple returned at top level). -/
theorem unmatched_counterexample :
    countOfAtoms "(" = some (Except.error PyErr.valueError) ∧
    countOfAtoms "A))" = some (Except.error PyErr.attributeError) :=
  ⟨rfl, rfl⟩

/-- C4 (amended): an unmatched `(` makes the caller unpack the dict the
inner call returns at end of input, crashing with `ValueError` (or
`TypeError` when that dict holds exactly two entries, as in `"(AB"`), and
an unmatched `)` at top level makes `count_of_atoms` call `.items()` on a
tuple, crashing with `AttributeError`; none of these is a structured parse
error. -/
theorem unmatched_crash :
    countOfAtoms "(" = some (Except.error PyErr.valueError) ∧
    countOfAtoms "(AB" = some (Except.error PyErr.typeError) ∧
    countOfAtoms "A))" = some (Except.error PyErr.attributeError) :=
  ⟨rfl, rfl, rfl⟩

/-- C5 counterexample: the two return shapes differ, so the contract is
not uniform: the outermost parse of `""` returns bare counts with no
cursor position (`atEnd`), while a parse stopped at `')'` returns the
counts-and-position pair (`atClose`). -/
theorem return_shape_counterexample :
    parseRun [] = some (Except.ok (ParseRet.atEnd [])) ∧
    parseRun [')'] = some (Except.ok (ParseRet.atClose [] 0)) :=
  ⟨rfl, rfl⟩

/-- C5 (amended): an invocation returns the accumulated counts together
with the stop position only when it stops at a `')'` (whose position it
reports); an invocation that reaches the end of the input returns the
accumulated counts alone, with no position. -/
theorem return_shape :
    (∀ (fuel : Nat) (s : List Char) (i : Nat) (counts cs : Counts) (j : Nat),
      parseF fuel s i counts = some (Except.ok (ParseRet.atClose cs j)) →
      j < s.length ∧ s.get? j = some ')') ∧
    (∀ (fuel : Nat) (s : List Char) (i : Nat) (counts : Counts),
      s.length ≤ i →
      parseF (fuel + 1) s i counts = some (Except.ok (ParseRet.atEnd counts))) := by
  constructor
  · intro fuel s i counts cs j hp
    obtain ⟨-, hj, hg⟩ := parseF_atClose_facts fuel s i counts cs j hp
    exact ⟨hj, by rw [List.get?_eq_get hj, hg]⟩
  · intro fuel s i counts hle
    rw [parseF_succ, parseBody_end _ _ _ _ (by omega)]

theorem return_shape_witness :
    ((0 : Nat) < 1 ∧ [')'].get? 0 = some ')') ∧
    parseF 1 [] 0 [] = some (Except.ok (ParseRet.atEnd [])) :=
  ⟨return_shape.1 2 [')'] 0 [] [] 0 rfl, return_shape.2 0 [] 0 [] (by decide)⟩

/-- C6: parsing is a pure, deterministic function of the formula string:
two runs on the same string give the same result, and the result depends
only on the string's characters. -/
theorem parse_deterministic :
    (∀ s : String, countOfAtoms s = countOfAtoms s) ∧
    (∀ s t : String, s.data = t.data → countOfAtoms s = countOfAtoms t) := by
  refine ⟨fun s => rfl, fun s t h => ?_⟩
  cases s
  cases t
  simp only at h
  subst h
  rfl

theorem parse_deterministic_witness :
    countOfAtoms "H2O" = countOfAtoms "H2O" :=
  parse_deterministic.2 "H2O" "H2O" rfl

/-- C7: the cursor never moves backwards: whenever an invocation started
at position `i` returns counts with a stop position `j`, we have `i ≤ j`. -/
theorem cursor_monotone :
    ∀ (fuel : Nat) (s : List Char) (i : Nat) (counts cs : Counts) (j : Nat),
      parseF fuel s i counts = some (Except.ok (ParseRet.atClose cs j)) → i ≤ j :=
  fun fuel s i counts cs j hp => (parseF_atClose_facts fuel s i counts cs j hp).1

theorem cursor_monotone_witness : (0 : Nat) ≤ 1 :=
  cursor_monotone 3 ['A', ')'] 0 [] [(['A'], 1)] 1 rfl

/-- C8: the parser terminates on every finite input: `count_of_atoms`
always produces a result (a count list or a raised exception), never
diverging — in the embedding, the fuel `parseRun` supplies never runs
out. -/
theorem parse_total : ∀ s : String, (countOfAtoms s).isSome = true := by
  intro s
  unfold countOfAtoms
  cases hrec : parseRun s.data with
  | none => exact absurd hrec (parseRun_ne_none _)
  | some v =>
      cases v with
      | error err => rfl
      | ok ret =>
          cases ret with
          | atEnd cs => rfl
          | atClose cs i => rfl

/-- C9: parsing the empty string succeeds and returns the empty mapping,
with no error. -/
theorem empty_formula_success : countOfAtoms "" = some (Except.ok []) := rfl

/-- C10 counterexample: not every character outside `[A-Za-z0-9()]` is
skipped.  U+00E9 (the letter e with acute accent) lies outside that class,
yet Python's Unicode `isalpha` accepts it, so the program parses it as an
atom name and it contributes a count of 1 — the parse returns that count
with no error instead of skipping the character. -/
theorem unicode_atom_counterexample :
    countOfAtoms "é" = some (Except.ok [("é", 1)]) := rfl

/-- C10 (amended): an ASCII character that is not a letter and not a
parenthesis — covering ASCII characters outside `[A-Za-z0-9()]` as well
as ASCII digits reached by the scanning loop directly (not consumed after
an element or a `')'`) — is silently skipped, one loop step advancing
past it with the counts unchanged: `parse("H2$")` yields H:2 and
`parse("2H")` yields H:1, with no error.  Non-ASCII characters that
Python classifies as letters are not skipped: U+00E9 is parsed as an
atom, both alone and as the continuation of a name. -/
theorem skip_chars :
    (∀ (fuel : Nat) (s : List Char) (i : Nat) (counts : Counts) (h : i < s.length),
      (s.get ⟨i, h⟩).toNat < 128 →
      isAl (s.get ⟨i, h⟩) = false →
      s.get ⟨i, h⟩ ≠ '(' → s.get ⟨i, h⟩ ≠ ')' →
      parseF (fuel + 1) s i counts = parseF fuel s (i + 1) counts) ∧
    countOfAtoms "H2$" = some (Except.ok [("H", 2)]) ∧
    countOfAtoms "2H" = some (Except.ok [("H", 1)]) ∧
    countOfAtoms "é" = some (Except.ok [("é", 1)]) ∧
    countOfAtoms "Hé2" = some (Except.ok [("Hé", 2)]) := by
  refine ⟨?_, rfl, rfl, rfl, rfl⟩
  intro fuel s i counts h _ h1 h2 h3
  rw [parseF_succ, parseBody_skip _ _ _ _ h h1 h2 h3]

theorem skip_chars_witness :
    parseF 3 ['2', 'H'] 0 [] = parseF 2 ['2', 'H'] 1 [] :=
  skip_chars.1 2 ['2', 'H'] 0 [] (by decide) (by decide) (by decide) (by decide)
    (by decide)

end AtomCount
